import Mathlib

/-!
Verification of the log-structured key-value store in src/src/main.rs.

The development shallowly embeds the Rust source: the record codec
(serde_json serialization of the struct Put), the write-ahead log
(Log::open, Log::put, Log::hydrate and its Queryable::get), the Memtable,
the Db engine (Db::new, Db::put, Db::get) and the segment builder
(Sst::construct).  Files are modelled by their contents: the log file by
the string of bytes written to it, and line-oriented readers by the list
of lines they stream.  I/O failures are modelled by an explicit
fault-injection argument at the point the source can fail.
-/

set_option maxHeartbeats 1000000

namespace LsmDb

/-- The Rust struct Put: a single key-value mutation with exactly two
string fields, key and value. -/
structure Put where
  key : String
  value : String
deriving DecidableEq

/-- The two error kinds of the Rust enum DBError: an I/O failure or a
serde encoding failure. -/
inductive DBError where
  | Io : DBError
  | Serde : DBError
deriving DecidableEq

/-- Lowercase hexadecimal digit for a value below 16, as used by the
serde_json writer for control-character escapes. -/
def toHexDigit (n : Nat) : Char :=
  if n < 10 then Char.ofNat (48 + n) else Char.ofNat (87 + n)

/-- JSON string escaping of one character, following the serde_json
writer: quote and backslash get two-character escapes, the five named
control characters get short escapes, the remaining control characters
below 0x20 get a six-character hexadecimal escape, and every other
character is emitted unchanged. -/
def escapeChar (c : Char) : List Char :=
  if c = '"' then ['\\', '"']
  else if c = '\\' then ['\\', '\\']
  else if c = '\x08' then ['\\', 'b']
  else if c = '\t' then ['\\', 't']
  else if c = '\n' then ['\\', 'n']
  else if c = '\x0c' then ['\\', 'f']
  else if c = '\r' then ['\\', 'r']
  else if c.toNat < 32 then
    ['\\', 'u', '0', '0', toHexDigit (c.toNat / 16), toHexDigit (c.toNat % 16)]
  else [c]

/-- JSON string escaping over a list of characters. -/
def escapeL (l : List Char) : List Char := (l.map escapeChar).flatten

/-- Serialization of a Put to its JSON line at the character level: an
object with exactly the two string fields key and value in declaration
order, as serde_json to_string produces for the struct Put. -/
def serializePutL (p : Put) : List Char :=
  '\x7b' :: '"' :: 'k' :: 'e' :: 'y' :: '"' :: ':' :: '"' ::
    (escapeL p.key.data ++
      ('"' :: ',' :: '"' :: 'v' :: 'a' :: 'l' :: 'u' :: 'e' :: '"' :: ':' :: '"' ::
        (escapeL p.value.data ++ ('"' :: '\x7d' :: []))))

/-- String form of the serialized record, mirroring
serde_json to_string applied to a Put. -/
def serializePut (p : Put) : String := String.mk (serializePutL p)

/-- Numeric value of a hexadecimal digit character, if any. -/
def fromHexDigit (c : Char) : Option Nat :=
  if 48 ≤ c.toNat ∧ c.toNat ≤ 57 then some (c.toNat - 48)
  else if 97 ≤ c.toNat ∧ c.toNat ≤ 102 then some (c.toNat - 87)
  else if 65 ≤ c.toNat ∧ c.toNat ≤ 70 then some (c.toNat - 55)
  else none

/-- Prepends a character to the parsed part of a partial parse result. -/
def mapCons (c : Char) : Option (List Char × List Char) → Option (List Char × List Char)
  | none => none
  | some (s, r) => some (c :: s, r)

/-- Parses a JSON string body up to and including its closing quote,
returning the decoded characters and the unconsumed remainder; models the
serde_json reader on string contents. -/
def parseJsonStr : List Char → Option (List Char × List Char)
  | [] => none
  | c :: rest =>
    if c = '"' then some ([], rest)
    else if c = '\\' then
      match rest with
      | [] => none
      | e :: rest2 =>
        if e = '"' then mapCons '"' (parseJsonStr rest2)
        else if e = '\\' then mapCons '\\' (parseJsonStr rest2)
        else if e = 'n' then mapCons '\n' (parseJsonStr rest2)
        else if e = 't' then mapCons '\t' (parseJsonStr rest2)
        else if e = 'r' then mapCons '\r' (parseJsonStr rest2)
        else if e = 'b' then mapCons '\x08' (parseJsonStr rest2)
        else if e = 'f' then mapCons '\x0c' (parseJsonStr rest2)
        else if e = 'u' then
          match rest2 with
          | d1 :: d2 :: d3 :: d4 :: rest3 =>
            match fromHexDigit d1, fromHexDigit d2, fromHexDigit d3, fromHexDigit d4 with
            | some a, some b, some c2, some d =>
              mapCons (Char.ofNat (4096 * a + 256 * b + 16 * c2 + d)) (parseJsonStr rest3)
            | _, _, _, _ => none
          | _ => none
        else none
    else mapCons c (parseJsonStr rest)

/-- Deserialization of one record line: accepts the object shape that the
serializer emits, with the two string fields key and value; models
serde_json from_str for the struct Put. -/
def deserializePutL : List Char → Option Put
  | '\x7b' :: '"' :: 'k' :: 'e' :: 'y' :: '"' :: ':' :: '"' :: rest =>
    match parseJsonStr rest with
    | some (k, ',' :: '"' :: 'v' :: 'a' :: 'l' :: 'u' :: 'e' :: '"' :: ':' :: '"' :: rest2) =>
      match parseJsonStr rest2 with
      | some (v, '\x7d' :: []) => some ⟨String.mk k, String.mk v⟩
      | _ => none
    | _ => none
  | _ => none

/-- Deserialization of one record line from a string. -/
def deserializePut (s : String) : Option Put := deserializePutL s.data

example : deserializePut (serializePut ⟨"foo", "bar"⟩) = some ⟨"foo", "bar"⟩ := by decide

example : deserializePut (serializePut ⟨"a\"b\\c", "x\ny"⟩) = some ⟨"a\"b\\c", "x\ny"⟩ := by
  decide

example : deserializePut "oops" = none := by decide

theorem fromHexDigit_toHexDigit (n : Nat) (h : n < 16) :
    fromHexDigit (toHexDigit n) = some n := by
  interval_cases n <;> rfl

theorem parseJsonStr_quote (rest : List Char) :
    parseJsonStr ('"' :: rest) = some ([], rest) := by
  conv_lhs => unfold parseJsonStr
  simp

theorem parseJsonStr_bsQuote (rest : List Char) :
    parseJsonStr ('\\' :: '"' :: rest) = mapCons '"' (parseJsonStr rest) := by
  conv_lhs => unfold parseJsonStr
  simp

theorem parseJsonStr_bsBs (rest : List Char) :
    parseJsonStr ('\\' :: '\\' :: rest) = mapCons '\\' (parseJsonStr rest) := by
  conv_lhs => unfold parseJsonStr
  simp

theorem parseJsonStr_bsN (rest : List Char) :
    parseJsonStr ('\\' :: 'n' :: rest) = mapCons '\n' (parseJsonStr rest) := by
  conv_lhs => unfold parseJsonStr
  simp

theorem parseJsonStr_bsT (rest : List Char) :
    parseJsonStr ('\\' :: 't' :: rest) = mapCons '\t' (parseJsonStr rest) := by
  conv_lhs => unfold parseJsonStr
  simp

theorem parseJsonStr_bsR (rest : List Char) :
    parseJsonStr ('\\' :: 'r' :: rest) = mapCons '\r' (parseJsonStr rest) := by
  conv_lhs => unfold parseJsonStr
  simp

theorem parseJsonStr_bsB (rest : List Char) :
    parseJsonStr ('\\' :: 'b' :: rest) = mapCons '\x08' (parseJsonStr rest) := by
  conv_lhs => unfold parseJsonStr
  simp

theorem parseJsonStr_bsF (rest : List Char) :
    parseJsonStr ('\\' :: 'f' :: rest) = mapCons '\x0c' (parseJsonStr rest) := by
  conv_lhs => unfold parseJsonStr
  simp

theorem parseJsonStr_hex (d1 d2 d3 d4 : Char) (a b c2 d : Nat) (rest : List Char)
    (h1 : fromHexDigit d1 = some a) (h2 : fromHexDigit d2 = some b)
    (h3 : fromHexDigit d3 = some c2) (h4 : fromHexDigit d4 = some d) :
    parseJsonStr ('\\' :: 'u' :: d1 :: d2 :: d3 :: d4 :: rest)
      = mapCons (Char.ofNat (4096 * a + 256 * b + 16 * c2 + d)) (parseJsonStr rest) := by
  conv_lhs => unfold parseJsonStr
  simp [h1, h2, h3, h4]

theorem parseJsonStr_plain (c : Char) (rest : List Char) (h1 : c ≠ '"') (h2 : c ≠ '\\') :
    parseJsonStr (c :: rest) = mapCons c (parseJsonStr rest) := by
  conv_lhs => unfold parseJsonStr
  rw [if_neg h1, if_neg h2]

theorem parseJsonStr_escapeL (l rest : List Char) :
    parseJsonStr (escapeL l ++ '"' :: rest) = some (l, rest) := by
  induction l with
  | nil => exact parseJsonStr_quote rest
  | cons c cs ih =>
    have hesc : escapeL (c :: cs) = escapeChar c ++ escapeL cs := by
      simp [escapeL]
    rw [hesc, List.append_assoc]
    by_cases g1 : c = '"'
    · subst g1
      rw [show escapeChar '"' = ['\\', '"'] from rfl]
      rw [List.cons_append, List.cons_append, List.nil_append, parseJsonStr_bsQuote, ih]
      rfl
    by_cases g2 : c = '\\'
    · subst g2
      rw [show escapeChar '\\' = ['\\', '\\'] from rfl]
      rw [List.cons_append, List.cons_append, List.nil_append, parseJsonStr_bsBs, ih]
      rfl
    by_cases g3 : c = '\x08'
    · subst g3
      rw [show escapeChar '\x08' = ['\\', 'b'] from rfl]
      rw [List.cons_append, List.cons_append, List.nil_append, parseJsonStr_bsB, ih]
      rfl
    by_cases g4 : c = '\t'
    · subst g4
      rw [show escapeChar '\t' = ['\\', 't'] from rfl]
      rw [List.cons_append, List.cons_append, List.nil_append, parseJsonStr_bsT, ih]
      rfl
    by_cases g5 : c = '\n'
    · subst g5
      rw [show escapeChar '\n' = ['\\', 'n'] from rfl]
      rw [List.cons_append, List.cons_append, List.nil_append, parseJsonStr_bsN, ih]
      rfl
    by_cases g6 : c = '\x0c'
    · subst g6
      rw [show escapeChar '\x0c' = ['\\', 'f'] from rfl]
      rw [List.cons_append, List.cons_append, List.nil_append, parseJsonStr_bsF, ih]
      rfl
    by_cases g7 : c = '\r'
    · subst g7
      rw [show escapeChar '\r' = ['\\', 'r'] from rfl]
      rw [List.cons_append, List.cons_append, List.nil_append, parseJsonStr_bsR, ih]
      rfl
    by_cases g8 : c.toNat < 32
    · have he : escapeChar c
          = ['\\', 'u', '0', '0', toHexDigit (c.toNat / 16), toHexDigit (c.toNat % 16)] := by
        unfold escapeChar
        rw [if_neg g1, if_neg g2, if_neg g3, if_neg g4, if_neg g5, if_neg g6, if_neg g7,
          if_pos g8]
      rw [he]
      simp only [List.cons_append, List.nil_append]
      rw [parseJsonStr_hex '0' '0' (toHexDigit (c.toNat / 16)) (toHexDigit (c.toNat % 16))
        0 0 (c.toNat / 16) (c.toNat % 16) _ rfl rfl
        (fromHexDigit_toHexDigit _ (by omega)) (fromHexDigit_toHexDigit _ (by omega))]
      rw [show 4096 * 0 + 256 * 0 + 16 * (c.toNat / 16) + c.toNat % 16 = c.toNat by omega]
      rw [Char.ofNat_toNat, ih]
      rfl
    · have he : escapeChar c = [c] := by
        unfold escapeChar
        rw [if_neg g1, if_neg g2, if_neg g3, if_neg g4, if_neg g5, if_neg g6, if_neg g7,
          if_neg g8]
      rw [he, List.singleton_append, parseJsonStr_plain c _ g1 g2, ih]
      rfl

theorem deserializePutL_serializePutL (p : Put) :
    deserializePutL (serializePutL p) = some p := by
  obtain ⟨⟨kl⟩, ⟨vl⟩⟩ := p
  show deserializePutL (serializePutL ⟨⟨kl⟩, ⟨vl⟩⟩) = some ⟨⟨kl⟩, ⟨vl⟩⟩
  rw [serializePutL]
  simp only [deserializePutL]
  rw [parseJsonStr_escapeL kl]
  simp only []
  rw [parseJsonStr_escapeL vl]
  rfl

/-- The record codec round-trips: deserializing the serialized form of any
Put yields it back. -/
theorem deserializePut_serializePut (p : Put) :
    deserializePut (serializePut p) = some p := by
  unfold deserializePut serializePut
  rw [show (String.mk (serializePutL p)).data = serializePutL p from rfl]
  exact deserializePutL_serializePutL p

theorem toHexDigit_ne_newline (n : Nat) (h : n < 16) : toHexDigit n ≠ '\n' := by
  interval_cases n <;> decide

theorem mem_escapeChar_newline (c : Char) : ('\n' ∈ escapeChar c) ↔ False := by
  simp only [iff_false]
  unfold escapeChar
  split_ifs with g1 g2 g3 g4 g5 g6 g7 g8
  · decide
  · decide
  · decide
  · decide
  · decide
  · decide
  · decide
  · intro hmem
    simp only [List.mem_cons, List.not_mem_nil, or_false] at hmem
    rcases hmem with h | h | h | h | h | h
    · exact absurd h (by decide)
    · exact absurd h (by decide)
    · exact absurd h (by decide)
    · exact absurd h (by decide)
    · exact toHexDigit_ne_newline (c.toNat / 16) (by omega) h.symm
    · exact toHexDigit_ne_newline (c.toNat % 16) (by omega) h.symm
  · intro hmem
    simp only [List.mem_cons, List.not_mem_nil, or_false] at hmem
    exact g5 hmem.symm

theorem mem_escapeL_newline (l : List Char) : ('\n' ∈ escapeL l) ↔ False := by
  simp only [iff_false]
  intro h
  unfold escapeL at h
  rw [List.mem_flatten] at h
  obtain ⟨s, hs, hmem⟩ := h
  rw [List.mem_map] at hs
  obtain ⟨c, _, rfl⟩ := hs
  exact (mem_escapeChar_newline c).mp hmem

/-- The serialized record line never contains a newline character, so the
newline terminator written after it is an unambiguous record separator. -/
theorem newline_not_mem_serializePutL (p : Put) : '\n' ∉ serializePutL p := by
  simp [serializePutL, List.mem_cons, List.mem_append, mem_escapeL_newline]

/-- Association-list model of the Rust std HashMap over string keys:
insert replaces the binding of an existing key in place and otherwise
appends, so the number of entries equals the number of distinct inserted
keys; iteration order is immaterial to every claim below. -/
def insertKV {α : Type} : List (String × α) → String → α → List (String × α)
  | [], k, v => [(k, v)]
  | (k', v') :: rest, k, v =>
    if k' = k then (k, v) :: rest else (k', v') :: insertKV rest k v

/-- Lookup in the association-list model of HashMap. -/
def findKV {α : Type} : List (String × α) → String → Option α
  | [], _ => none
  | (k', v') :: rest, k => if k' = k then some v' else findKV rest k

theorem findKV_insertKV_self {α : Type} (m : List (String × α)) (k : String) (v : α) :
    findKV (insertKV m k v) k = some v := by
  induction m with
  | nil => simp [insertKV, findKV]
  | cons hd tl ih =>
    obtain ⟨k', v'⟩ := hd
    by_cases h : k' = k
    · subst h
      simp [insertKV, findKV]
    · simp [insertKV, findKV, h, ih]

theorem findKV_insertKV_other {α : Type} (m : List (String × α)) (k k' : String) (v : α)
    (h : k' ≠ k) : findKV (insertKV m k' v) k = findKV m k := by
  induction m with
  | nil => simp [insertKV, findKV, h]
  | cons hd tl ih =>
    obtain ⟨k0, v0⟩ := hd
    by_cases h0 : k0 = k'
    · subst h0
      simp [insertKV, findKV, h]
    · by_cases h1 : k0 = k
      · subst h1
        simp [insertKV, findKV, h0]
      · simp [insertKV, findKV, h0, h1, ih]

theorem length_insertKV_fresh {α : Type} (m : List (String × α)) (k : String) (v : α)
    (h : findKV m k = none) : (insertKV m k v).length = m.length + 1 := by
  induction m with
  | nil => simp [insertKV]
  | cons hd tl ih =>
    obtain ⟨k', v'⟩ := hd
    by_cases h0 : k' = k
    · subst h0
      simp [findKV] at h
    · rw [findKV, if_neg h0] at h
      simp [insertKV, h0, ih h]

/-- The Rust struct Memtable: an in-memory mapping from keys to values. -/
structure Memtable where
  memtable : List (String × String)
deriving DecidableEq

/-- The Memtable constructor exactly as the source writes it: it receives
the hydrated mapping as an argument but ignores it and installs a fresh
empty HashMap. -/
def Memtable.new (_memtable : List (String × String)) : Memtable := ⟨[]⟩

/-- Memtable put: HashMap insert, overwriting any existing entry. -/
def Memtable.put (t : Memtable) (key value : String) : Memtable :=
  ⟨insertKV t.memtable key value⟩

/-- The Queryable impl for Memtable: always returns ok with the stored
value, if any. -/
def Memtable.get (t : Memtable) (key : String) : Except DBError (Option String) :=
  Except.ok (findKV t.memtable key)

/-- One committed record as Log put writes it: the serialized line plus
the newline terminator. -/
def logLine (p : Put) : String := serializePut p ++ "\n"

/-- The write-ahead log, modeled by the byte contents of its backing
file; Log open uses append mode, so every later write extends the file. -/
structure Log where
  file : String
deriving DecidableEq

/-- Log put: serializes the record and appends it plus the newline
terminator to the append-mode file, then syncs.  The fail argument
injects the serialization or I/O failures the source can hit; on failure
nothing is committed and the error propagates. -/
def Log.put (fail : Option DBError) (g : Log) (key value : String) : Except DBError Log :=
  match fail with
  | some e => Except.error e
  | none => Except.ok ⟨g.file ++ logLine ⟨key, value⟩⟩

/-- One streamed line as next_line yields it: the characters read before
the newline, with a trailing carriage return stripped. -/
def finishLine (cur : List Char) : String :=
  String.mk (if cur.getLast? = some '\r' then cur.dropLast else cur)

/-- Walks the file contents splitting at newline terminators; a final
unterminated line is still yielded, a terminating newline yields no
phantom empty line after it. -/
def splitLinesAux : List Char → List Char → List String
  | [], cur => if cur.isEmpty then [] else [finishLine cur]
  | c :: rest, cur =>
    if c = '\n' then finishLine cur :: splitLinesAux rest []
    else splitLinesAux rest (cur ++ [c])

/-- The list of lines a buffered line reader streams from a file. -/
def linesOf (s : String) : List String := splitLinesAux s.data []

/-- Folding one streamed line into the mapping being hydrated: a line
that fails to deserialize aborts with a Serde error, a later record for a
key overwrites an earlier one. -/
def hydrateAux : List String → List (String × String) → Except DBError (List (String × String))
  | [], m => Except.ok m
  | line :: rest, m =>
    match deserializePut line with
    | none => Except.error DBError.Serde
    | some p => hydrateAux rest (insertKV m p.key p.value)

/-- Log hydrate: reopens the log for reading, streams its lines in file
order into a mapping, and hands that mapping to the Memtable
constructor. -/
def Log.hydrate (g : Log) : Except DBError Memtable :=
  (hydrateAux (linesOf g.file) []).map Memtable.new

/-- The while loop of the Queryable impl for Log: scans every line,
remembering the value of the most recent record whose key matches. -/
def logGetAux : List String → String → Option String → Except DBError (Option String)
  | [], _, result => Except.ok result
  | line :: rest, key, result =>
    match deserializePut line with
    | none => Except.error DBError.Serde
    | some p => logGetAux rest key (if p.key = key then some p.value else result)

/-- The Queryable impl for Log: reopens the file and scans all lines,
returning the last matching value. -/
def Log.get (g : Log) (key : String) : Except DBError (Option String) :=
  logGetAux (linesOf g.file) key none

/-- The Rust struct Db: the engine owns one Log and one Memtable. -/
structure Db where
  log : Log
  memtable : Memtable
deriving DecidableEq

/-- Db new: opens the log of the storage directory (whose current log
file contents are the argument; a fresh directory has an empty file) and
hydrates the Memtable from it; hydration failure aborts startup. -/
def Db.new (file : String) : Except DBError Db :=
  match Log.hydrate ⟨file⟩ with
  | Except.error e => Except.error e
  | Except.ok m => Except.ok ⟨⟨file⟩, m⟩

/-- Db put: appends to the write-ahead log first and only on success
updates the Memtable; a log failure leaves the whole engine state
untouched and returns the error. -/
def Db.put (fail : Option DBError) (db : Db) (key value : String) :
    Db × Except DBError Unit :=
  match Log.put fail db.log key value with
  | Except.error e => (db, Except.error e)
  | Except.ok newlog => (⟨newlog, db.memtable.put key value⟩, Except.ok ())

/-- A successful Db put. -/
def Db.putOk (db : Db) (key value : String) : Db := (Db.put none db key value).1

/-- Db get: reads the Memtable tier. -/
def Db.get (db : Db) (key : String) : Except DBError (Option String) :=
  db.memtable.get key

/-- Runs a sequence of successful puts left to right. -/
def runPuts : Db → List (String × String) → Db
  | db, [] => db
  | db, (k, v) :: rest => runPuts (db.putOk k v) rest

/-- The data-file path Sst construct derives from the path argument. -/
def Sst.dataPathOf (path : String) : String := path ++ ".data"

/-- The index-file path Sst construct derives from the path argument,
exactly as the source writes it. -/
def Sst.indexPathOf (path : String) : String := path ++ ".data"

/-- Number of bytes of the UTF-8 encoding of a string, which is what the
file write position advances by. -/
def byteSize (s : String) : Nat := (s.data.map Char.utf8Size).sum

/-- The bytes Sst construct writes to the data file: each record
serialized and newline-terminated, in input order. -/
def Sst.constructData : List (String × String) → String
  | [] => ""
  | (k, v) :: rest => logLine ⟨k, v⟩ ++ Sst.constructData rest

/-- The sparse index Sst construct builds: walking the enumerated input
with the current data-file write position (the seek Current 0 result
taken before the record is written), and inserting the key with that
position for every sixteenth record counting from the first. -/
def Sst.constructIndex :
    List (String × String) → Nat → Nat → List (String × Nat) → List (String × Nat)
  | [], _, _, index => index
  | (k, v) :: rest, idx, pos, index =>
    Sst.constructIndex rest (idx + 1) (pos + byteSize (logLine ⟨k, v⟩))
      (if idx % 16 = 0 then insertKV index k pos else index)

/-- Specification-side observer: the value of the last record in file
order whose key equals the target, if any. -/
def lastValue : List Put → String → Option String
  | [], _ => none
  | p :: rest, k =>
    match lastValue rest k with
    | some v => some v
    | none => if p.key = k then some p.value else none

/-- The mapping replay builds from a list of records, folding them in
file order with last-write-wins. -/
def replayMap : List Put → List (String × String) → List (String × String)
  | [], m => m
  | p :: rest, m => replayMap rest (insertKV m p.key p.value)

theorem hydrateAux_serialized (recs : List Put) (m : List (String × String)) :
    hydrateAux (recs.map serializePut) m = Except.ok (replayMap recs m) := by
  induction recs generalizing m with
  | nil => rfl
  | cons p rest ih =>
    rw [List.map_cons, hydrateAux, deserializePut_serializePut]
    exact ih (insertKV m p.key p.value)

theorem hydrateAux_error (lines : List String) (m : List (String × String))
    (h : ∃ line ∈ lines, deserializePut line = none) :
    hydrateAux lines m = Except.error DBError.Serde := by
  induction lines generalizing m with
  | nil => simp at h
  | cons line rest ih =>
    obtain ⟨l, hl, hnone⟩ := h
    rw [List.mem_cons] at hl
    rw [hydrateAux]
    rcases hl with rfl | hl
    · rw [hnone]
    · cases hdes : deserializePut line with
      | none => rfl
      | some p => exact ih _ ⟨l, hl, hnone⟩

theorem logGetAux_serialized (recs : List Put) (k : String) (acc : Option String) :
    logGetAux (recs.map serializePut) k acc
      = Except.ok (match lastValue recs k with | some v => some v | none => acc) := by
  induction recs generalizing acc with
  | nil => rfl
  | cons p rest ih =>
    rw [List.map_cons, logGetAux, deserializePut_serializePut]
    show logGetAux (rest.map serializePut) k (if p.key = k then some p.value else acc)
      = Except.ok (match lastValue (p :: rest) k with | some v => some v | none => acc)
    rw [ih, lastValue]
    cases lastValue rest k with
    | some v => rfl
    | none =>
      by_cases h : p.key = k
      · simp [h]
      · simp [h]

theorem findKV_replayMap (recs : List Put) (m : List (String × String)) (k : String) :
    findKV (replayMap recs m) k
      = match lastValue recs k with | some v => some v | none => findKV m k := by
  induction recs generalizing m with
  | nil => rfl
  | cons p rest ih =>
    rw [replayMap, ih, lastValue]
    cases lastValue rest k with
    | some v => rfl
    | none =>
      by_cases h : p.key = k
      · subst h
        simp [findKV_insertKV_self]
      · simp [h, findKV_insertKV_other m k p.key _ h]

theorem byteSize_append (s t : String) : byteSize (s ++ t) = byteSize s + byteSize t := by
  unfold byteSize
  rw [String.data_append, List.map_append, List.sum_append]

/-- Number of sampled positions among the next n enumerate indices,
starting at index idx. -/
def countSamples : Nat → Nat → Nat
  | 0, _ => 0
  | n + 1, idx => (if idx % 16 = 0 then 1 else 0) + countSamples n (idx + 1)

theorem countSamples_eq (n : Nat) : ∀ idx : Nat,
    countSamples n idx = (idx % 16 + n + 15) / 16 - (idx % 16 + 15) / 16 := by
  induction n with
  | zero => intro idx; simp [countSamples]
  | succ n ih =>
    intro idx
    rw [countSamples, ih (idx + 1)]
    by_cases h : idx % 16 = 0
    · simp only [h, if_pos]
      omega
    · rw [if_neg h]
      omega

theorem mem_insertKV {α : Type} (m : List (String × α)) (k : String) (v : α)
    (e : String × α) (h : e ∈ insertKV m k v) : e = (k, v) ∨ e ∈ m := by
  induction m with
  | nil => simp [insertKV] at h; simp [h]
  | cons hd tl ih =>
    obtain ⟨k', v'⟩ := hd
    by_cases h0 : k' = k
    · subst h0
      rw [insertKV, if_pos rfl] at h
      rw [List.mem_cons] at h
      rcases h with rfl | h
      · exact Or.inl rfl
      · exact Or.inr (List.mem_cons_of_mem _ h)
    · rw [insertKV, if_neg h0] at h
      rw [List.mem_cons] at h
      rcases h with rfl | h
      · exact Or.inr (List.mem_cons_self _ _)
      · rcases ih h with h1 | h1
        · exact Or.inl h1
        · exact Or.inr (List.mem_cons_of_mem _ h1)

theorem constructIndex_length (data : List (String × String)) :
    ∀ (idx pos : Nat) (ix : List (String × Nat)),
    (∀ kv ∈ data, findKV ix kv.1 = none) → (data.map Prod.fst).Nodup →
    (Sst.constructIndex data idx pos ix).length = ix.length + countSamples data.length idx := by
  induction data with
  | nil =>
    intro idx pos ix _ _
    simp [Sst.constructIndex, countSamples]
  | cons kv rest ih =>
    intro idx pos ix hfresh hnodup
    obtain ⟨k, v⟩ := kv
    rw [Sst.constructIndex]
    rw [List.map_cons, List.nodup_cons] at hnodup
    by_cases h : idx % 16 = 0
    · rw [if_pos h]
      have hfk : findKV ix k = none := hfresh (k, v) (List.mem_cons_self _ _)
      have hfresh' : ∀ kv' ∈ rest, findKV (insertKV ix k pos) kv'.1 = none := by
        intro kv' hkv'
        have hne : k ≠ kv'.1 := by
          intro hc
          refine hnodup.1 ?_
          show k ∈ List.map Prod.fst rest
          rw [hc]
          exact List.mem_map_of_mem Prod.fst hkv'
        rw [findKV_insertKV_other ix kv'.1 k pos hne]
        exact hfresh kv' (List.mem_cons_of_mem _ hkv')
      rw [ih (idx + 1) _ _ hfresh' hnodup.2]
      rw [length_insertKV_fresh ix k pos hfk, List.length_cons, countSamples, if_pos h]
      omega
    · rw [if_neg h]
      have hfresh' : ∀ kv' ∈ rest, findKV ix kv'.1 = none :=
        fun kv' hkv' => hfresh kv' (List.mem_cons_of_mem _ hkv')
      rw [ih (idx + 1) _ _ hfresh' hnodup.2, List.length_cons, countSamples, if_neg h]
      omega

theorem constructIndex_mem (data : List (String × String)) :
    ∀ (idx pos : Nat) (ix : List (String × Nat)) (e : String × Nat),
    e ∈ Sst.constructIndex data idx pos ix →
    e ∈ ix ∨ ∃ i, i < data.length ∧ (idx + i) % 16 = 0 ∧
      (data[i]?).map Prod.fst = some e.1 ∧
      e.2 = pos + byteSize (Sst.constructData (List.take i data)) := by
  induction data with
  | nil =>
    intro idx pos ix e h
    rw [Sst.constructIndex] at h
    exact Or.inl h
  | cons kv rest ih =>
    intro idx pos ix e h
    obtain ⟨k, v⟩ := kv
    rw [Sst.constructIndex] at h
    rcases ih (idx + 1) _ _ e h with h1 | ⟨i, hi, hmod, hkey, hoff⟩
    · by_cases hs : idx % 16 = 0
      · rw [if_pos hs] at h1
        rcases mem_insertKV ix k pos e h1 with rfl | h2
        · right
          refine ⟨0, by simp, by simpa using hs, by simp, ?_⟩
          simp [Sst.constructData, byteSize]
        · exact Or.inl h2
      · rw [if_neg hs] at h1
        exact Or.inl h1
    · right
      refine ⟨i + 1, by simpa using hi, by omega, by simpa using hkey, ?_⟩
      rw [List.take_succ_cons, Sst.constructData, byteSize_append]
      omega

theorem runPuts_findKV_avoid (ps : List (String × String)) (k : String) :
    ∀ db : Db, (∀ p ∈ ps, p.1 ≠ k) →
    findKV ((runPuts db ps).memtable.memtable) k = findKV db.memtable.memtable k := by
  induction ps with
  | nil => intro db _; rfl
  | cons p rest ih =>
    intro db h
    obtain ⟨k', v'⟩ := p
    rw [runPuts]
    rw [ih (Db.putOk db k' v') (fun q hq => h q (List.mem_cons_of_mem _ hq))]
    show findKV (insertKV db.memtable.memtable k' v') k = findKV db.memtable.memtable k
    exact findKV_insertKV_other _ _ _ _ (h (k', v') (List.mem_cons_self _ _))

/-- C1: the claim says reopening the engine against the same directory
reproduces the Memtable, hydration folding the log records
last-write-wins.  The code violates it: hydrate builds the correct
mapping from the log (first conjunct), but the Memtable constructor
ignores its argument and installs an empty map, so the reopened engine
has an empty Memtable and a get for a logged key returns none (second
and third conjuncts). -/
theorem c1_reopen_loses_hydrated_state :
    hydrateAux (linesOf (logLine ⟨"foo", "bar"⟩)) [] = Except.ok [("foo", "bar")] ∧
    Db.new (logLine ⟨"foo", "bar"⟩) = Except.ok ⟨⟨logLine ⟨"foo", "bar"⟩⟩, ⟨[]⟩⟩ ∧
    Db.get ⟨⟨logLine ⟨"foo", "bar"⟩⟩, ⟨[]⟩⟩ "foo" = Except.ok none :=
  ⟨rfl, rfl, rfl⟩

/-- C2: the claim says Sst construct writes two distinct files.  The
code violates it: the index path is derived with the same data suffix as
the data path, so for every path prefix the two paths coincide and the
index bytes are written into the data file. -/
theorem c2_data_and_index_paths_collide (path : String) :
    Sst.indexPathOf path = Sst.dataPathOf path := rfl

/-- C3 counterexample: on an input of 17 pairs that all share one key,
the index HashMap collapses the two sampled entries into one, so its size
is 1 and not the claimed ceiling of 17 over 16, which is 2. -/
theorem c3_counterexample :
    ¬ (Sst.constructIndex (List.replicate 17 ("a", "b")) 0 0 []).length
        = ((List.replicate 17 (("a" : String), ("b" : String))).length + 15) / 16 := by
  decide

/-- C3 (amended): when the input keys are pairwise distinct — as they are
when flushing a Memtable — the index built by Sst construct has exactly
the ceiling of N over 16 entries; and in all cases, duplicate keys
included, every recorded entry samples a position that is a multiple of
16, carries the key found there, and records the byte offset of the data
file as it stood immediately before that record was written. -/
theorem c3_sparse_index (data : List (String × String)) :
    ((data.map Prod.fst).Nodup →
      (Sst.constructIndex data 0 0 []).length = (data.length + 15) / 16) ∧
    ∀ e ∈ Sst.constructIndex data 0 0 [], ∃ i, i < data.length ∧ i % 16 = 0 ∧
      (data[i]?).map Prod.fst = some e.1 ∧
      e.2 = byteSize (Sst.constructData (List.take i data)) := by
  constructor
  · intro hnodup
    rw [constructIndex_length data 0 0 [] (fun kv _ => rfl) hnodup, countSamples_eq]
    simp only [List.length_nil]
    omega
  · intro e he
    rcases constructIndex_mem data 0 0 [] e he with h | ⟨i, hi, hmod, hkey, hoff⟩
    · simp at h
    · exact ⟨i, hi, by simpa using hmod, hkey, by simpa using hoff⟩

theorem c3_sparse_index_witness :
    (Sst.constructIndex [(("a" : String), ("x" : String)), ("b", "y")] 0 0 []).length = 1 :=
  (c3_sparse_index [("a", "x"), ("b", "y")]).1 (by decide)

/-- C4: read-your-writes: a get immediately following a successful put of
a key returns the value just put, from any engine state; and the concrete
trace of three puts on a fresh engine yields goo for foo, qux for baz and
absent for missing. -/
theorem c4_read_your_writes :
    (∀ (db : Db) (k v : String), Db.get (db.putOk k v) k = Except.ok (some v)) ∧
    Db.new "" = Except.ok ⟨⟨""⟩, ⟨[]⟩⟩ ∧
    Db.get (runPuts ⟨⟨""⟩, ⟨[]⟩⟩ [("foo", "bar"), ("baz", "qux"), ("foo", "goo")]) "foo"
      = Except.ok (some "goo") ∧
    Db.get (runPuts ⟨⟨""⟩, ⟨[]⟩⟩ [("foo", "bar"), ("baz", "qux"), ("foo", "goo")]) "baz"
      = Except.ok (some "qux") ∧
    Db.get (runPuts ⟨⟨""⟩, ⟨[]⟩⟩ [("foo", "bar"), ("baz", "qux"), ("foo", "goo")]) "missing"
      = Except.ok none := by
  refine ⟨?_, rfl, rfl, rfl, rfl⟩
  intro db k v
  show Except.ok (findKV (insertKV db.memtable.memtable k v) k) = Except.ok (some v)
  rw [findKV_insertKV_self]

/-- C5: if the write-ahead-log append step of Db put fails with any
error, Db put returns that error and the whole engine state — the
Memtable in particular — is left unchanged. -/
theorem c5_wal_failure_gates_memtable (db : Db) (key value : String) (e : DBError) :
    Db.put (some e) db key value = (db, Except.error e) := rfl

/-- C6: a log file containing any line that does not decode into a
record makes hydrate abort with the Serde encoding error, returning no
partially built Memtable, and engine startup consequently fails. -/
theorem c6_malformed_line_aborts_startup (file : String)
    (h : ∃ line ∈ linesOf file, deserializePut line = none) :
    Log.hydrate ⟨file⟩ = Except.error DBError.Serde ∧
    Db.new file = Except.error DBError.Serde := by
  have h2 : Log.hydrate ⟨file⟩ = Except.error DBError.Serde := by
    unfold Log.hydrate
    rw [hydrateAux_error (linesOf (Log.mk file).file) [] h]
    rfl
  refine ⟨h2, ?_⟩
  unfold Db.new
  rw [h2]

theorem c6_witness : Db.new "oops" = Except.error DBError.Serde :=
  (c6_malformed_line_aborts_startup "oops" ⟨"oops", by decide, by decide⟩).2

/-- C7: a get for a key never written by any prior put returns absent,
and a get never returns an error. -/
theorem c7_get_never_written (ps : List (String × String)) (k : String)
    (h : ∀ p ∈ ps, p.1 ≠ k) :
    Db.new "" = Except.ok ⟨⟨""⟩, ⟨[]⟩⟩ ∧
    Db.get (runPuts ⟨⟨""⟩, ⟨[]⟩⟩ ps) k = Except.ok none ∧
    ∀ db : Db, ∃ o, Db.get db k = Except.ok o := by
  refine ⟨rfl, ?_, fun db => ⟨findKV db.memtable.memtable k, rfl⟩⟩
  show Except.ok (findKV ((runPuts ⟨⟨""⟩, ⟨[]⟩⟩ ps).memtable.memtable) k) = Except.ok none
  rw [runPuts_findKV_avoid ps k ⟨⟨""⟩, ⟨[]⟩⟩ h]
  rfl

theorem c7_witness :
    Db.get (runPuts ⟨⟨""⟩, ⟨[]⟩⟩ [("a", "1")]) "b" = Except.ok none :=
  (c7_get_never_written [("a", "1")] "b" (by decide)).2.1

/-- C8: the write-ahead log is append-only: a successful Log put turns
the file into the old contents followed by the new record line, so every
byte position already written holds the same byte afterwards. -/
theorem c8_log_append_only (g : Log) (key value : String) :
    Log.put none g key value = Except.ok ⟨g.file ++ logLine ⟨key, value⟩⟩ ∧
    (g.file ++ logLine ⟨key, value⟩).data = g.file.data ++ (logLine ⟨key, value⟩).data ∧
    ∀ i, i < g.file.data.length →
      (g.file ++ logLine ⟨key, value⟩).data[i]? = g.file.data[i]? := by
  refine ⟨rfl, String.data_append _ _, fun i hi => ?_⟩
  rw [String.data_append]
  exact List.getElem?_append_left hi

theorem c8_witness :
    (("x" ++ logLine ⟨"k", "v"⟩).data)[0]? = (("x" : String).data)[0]? :=
  (c8_log_append_only ⟨"x"⟩ "k" "v").2.2 0 (by decide)

/-- C9: the record codec round-trips for every key and value, each
encoded record is the serialized object followed by the newline
terminator, and the serialized object itself contains no newline, so the
line is a single newline-terminated textual object with exactly the two
string fields key and value. -/
theorem c9_record_codec (key value : String) :
    deserializePut (serializePut ⟨key, value⟩) = some ⟨key, value⟩ ∧
    logLine ⟨key, value⟩ = serializePut ⟨key, value⟩ ++ "\n" ∧
    '\n' ∉ (serializePut ⟨key, value⟩).data := by
  refine ⟨deserializePut_serializePut _, rfl, ?_⟩
  show '\n' ∉ serializePutL ⟨key, value⟩
  exact newline_not_mem_serializePutL _

/-- C10: on a well-formed log file — one whose lines are serialized
records — the Queryable get of Log scans the whole file and returns the
value of the last record whose key matches, or none; and this agrees with
the mapping replay builds from the same lines. -/
theorem c10_wal_get_last_write_wins (recs : List Put) (k : String) (g : Log)
    (hwf : linesOf g.file = recs.map serializePut) :
    Log.get g k = Except.ok (lastValue recs k) ∧
    hydrateAux (linesOf g.file) [] = Except.ok (replayMap recs []) ∧
    findKV (replayMap recs []) k = lastValue recs k := by
  refine ⟨?_, ?_, ?_⟩
  · unfold Log.get
    rw [hwf, logGetAux_serialized]
    cases lastValue recs k <;> rfl
  · rw [hwf, hydrateAux_serialized]
  · rw [findKV_replayMap]
    cases lastValue recs k <;> rfl

theorem c10_witness :
    Log.get ⟨logLine ⟨"a", "b"⟩⟩ "a" = Except.ok (lastValue [⟨"a", "b"⟩] "a") :=
  (c10_wal_get_last_write_wins [⟨"a", "b"⟩] "a" ⟨logLine ⟨"a", "b"⟩⟩ (by decide)).1

end LsmDb
